import Mathlib

/-!
Verification of the page-loading and content-inclusion pipeline of
`cmd/giouiorg/page.go` (the giouiorg documentation server).

The Go source is shallowly embedded: byte strings become `List Char`,
file reads become lookups in an explicit map, and the library calls the
code makes (regexp compilation and matching, YAML decoding, Markdown
rendering, HTML template execution) become parameters collected in the
`Libs` structure.  Every definition mirrors the corresponding Go
function; theorems relate them to the specified behaviour.
-/

namespace Giouiorg

/-- Go `bytes`/`strings` helper: does `needle` occur at the head of `hay`? -/
def startsWith : List Char → List Char → Bool
  | [], _ => true
  | _ :: _, [] => false
  | a :: as, b :: bs => a = b && startsWith as bs

/-- Go `strings.Contains` / `bytes.Contains`: does `needle` occur anywhere
in `hay` (as a contiguous run)? -/
def containsSeq (needle : List Char) : List Char → Bool
  | [] => needle.isEmpty
  | hay@(_ :: rest) => startsWith needle hay || containsSeq needle rest

/-- Index of the leftmost occurrence of `needle` in `hay`, together with the
index just past it: the model of Go `Index`-style searching and of
`regexp.FindIndex` for a literal pattern.  `off` is the offset already
consumed. -/
def findLitAux (needle : List Char) : List Char → Nat → Option (Nat × Nat)
  | hay, off =>
    if startsWith needle hay then some (off, off + needle.length)
    else
      match hay with
      | [] => none
      | _ :: rest => findLitAux needle rest (off + 1)

/-- Leftmost occurrence of `needle` in `hay` as a `[start, end)` index pair. -/
def findLit (needle hay : List Char) : Option (Nat × Nat) :=
  findLitAux needle hay 0

/-- Go `bufio.ScanLines` helper `dropCR`: drop a single trailing `\r`. -/
def dropCR (l : List Char) : List Char :=
  if l.getLast? = some '\r' then l.dropLast else l

/-- Worker for `scanLines`: `acc` holds the current line, reversed. -/
def scanLinesAux : List Char → List Char → List (List Char)
  | acc, [] => if acc.isEmpty then [] else [dropCR acc.reverse]
  | acc, c :: rest =>
    if c = '\n' then dropCR acc.reverse :: scanLinesAux [] rest
    else scanLinesAux (c :: acc) rest

/-- The lines produced by a Go `bufio.Scanner` with the default
`ScanLines` split function: split on `\n`, strip one trailing `\r` per
line, no empty final token after a terminating newline. -/
def scanLines (text : List Char) : List (List Char) :=
  scanLinesAux [] text

/-- Number of leading tab characters of a line. -/
def leadingTabs (l : List Char) : Nat :=
  (l.takeWhile (fun c => c = '\t')).length

/-- The inner loop of Go `undent`: strip at most `n` tab characters
actually leading the line. -/
def stripTabs : Nat → List Char → List Char
  | 0, l => l
  | _ + 1, [] => []
  | n + 1, c :: rest => if c = '\t' then stripTabs n rest else c :: rest

/-- Does a line contain the marker `OMIT` (Go `strings.Contains(line, "OMIT")`)? -/
def containsOMIT (l : List Char) : Bool :=
  containsSeq ("OMIT".toList) l

/-- The scanning loop of Go `undent` over the already-split lines.
`first` and `ntabs` are the loop state: whether a retained line has been
seen yet, and how many tabs to strip. -/
def undentGo : List (List Char) → Bool → Nat → List Char
  | [], _, _ => []
  | line :: rest, first, ntabs =>
    if containsOMIT line then undentGo rest first ntabs
    else
      let ntabs' := if first then leadingTabs line else ntabs
      stripTabs ntabs' line ++ '\n' :: undentGo rest false ntabs'

/-- Go `undent`: removes the number of leading tab characters in the first
line from all lines, dropping lines that contain `OMIT`. -/
def undent (text : List Char) : List Char :=
  undentGo (scanLines text) true 0

/-- Go `bytes.Trim(content, "\n\r")` cutset membership. -/
def isNlCr (c : Char) : Bool :=
  c = '\n' || c = '\r'

/-- Go `bytes.Trim(content, "\n\r")`: strip leading and trailing newline and
carriage-return characters. -/
def trimNl (l : List Char) : List Char :=
  (((l.dropWhile isNlCr).reverse.dropWhile isNlCr)).reverse

/-- A compiled-regex library, abstracting Go `regexp`.  `compile` models
`regexp.Compile` (`none` on a compile error) and `findIndex` models
`Regexp.FindIndex`: the `[start, end)` index pair of the leftmost match,
or `none` when the regex has no match. -/
structure RegexEngine (ρ : Type) where
  compile : List Char → Option ρ
  findIndex : ρ → List Char → Option (Nat × Nat)

/-- The errors `includeExample` and `regexFor` can return. -/
inductive IncludeError
  | readError
  | invalidAddress (addr : List Char)
  | regexSeparators (r : List Char)
  | regexCompile (r : List Char)
deriving DecidableEq

/-- Go `regexFor`: check the `/regex/` shape, strip the separators and
compile the enclosed regex. -/
def regexFor {ρ : Type} (E : RegexEngine ρ) (r : List Char) :
    Except IncludeError ρ :=
  if r.length < 2 ∨ r.head? ≠ some '/' ∨ r.getLast? ≠ some '/' then
    .error (.regexSeparators r)
  else
    match E.compile ((r.drop 1).dropLast) with
    | some re => .ok re
    | none => .error (.regexCompile r)

/-- Go `strings.SplitN(addr, ",", 2)`, presented as the split at the first
comma: `none` when the address holds no comma (Go returns a one-element
slice there, which `includeExample` rejects as an invalid address). -/
def splitFirstComma (addr : List Char) : Option (List Char × List Char) :=
  match findLit [','] addr with
  | some (i, _) => some (addr.take i, addr.drop (i + 1))
  | none => none

/-- Go `includeExample`.  `fs` maps a path (relative to the `include`
root, which `filepath.Join(includeRoot, path)` selects) to the file's
content, `none` when the read fails. -/
def includeExample {ρ : Type} (E : RegexEngine ρ)
    (fs : List Char → Option (List Char)) (path addr : List Char) :
    Except IncludeError (List Char) :=
  match fs path with
  | none => .error .readError
  | some content =>
    if addr.isEmpty then
      .ok (undent (trimNl content ++ ['\n']))
    else
      match splitFirstComma addr with
      | none => .error (.invalidAddress addr)
      | some (s, e) =>
        match regexFor E s with
        | .error err => .error err
        | .ok startR =>
          match regexFor E e with
          | .error err => .error err
          | .ok endR =>
            let c1 :=
              match E.findIndex startR content with
              | some (i, _) => content.drop i
              | none => content
            let c2 :=
              match E.findIndex endR c1 with
              | some (_, j) => c1.take j
              | none => c1
            .ok (undent (trimNl c2 ++ ['\n']))

/-- The YAML front matter of a page; the Go struct has the single field
`Title string`. -/
structure frontMatter where
  Title : List Char
deriving DecidableEq

/-- A loaded page: front matter and Markdown body. -/
structure page where
  Front : frontMatter
  Content : List Char
deriving DecidableEq

/-- Go `bytes.SplitN(s, sep, n)` for a non-empty separator and `n ≥ 1`:
split around the leftmost non-overlapping occurrences of `sep`, at most
`n` pieces, the last piece holding the unsplit remainder. -/
def splitNSep (sep : List Char) : Nat → List Char → List (List Char)
  | 0, s => [s]
  | 1, s => [s]
  | n + 2, s =>
    match findLit sep s with
    | none => [s]
    | some (i, _) => s.take i :: splitNSep sep (n + 1) (s.drop (i + sep.length))

/-- Go `loadPage`.  `Y` models `yaml.Unmarshal` into a `frontMatter`
value (`.error` on a decode failure). -/
def loadPage (Y : List Char → Except (List Char) frontMatter)
    (content : List Char) : Except (List Char) page :=
  match splitNSep ("---".toList) 3 content with
  | p0 :: p1 :: p2 :: _ =>
    if p0.length > 0 then
      .ok ⟨⟨[]⟩, content⟩
    else
      match Y p1 with
      | .error e => .error e
      | .ok front => .ok ⟨front, p2⟩
  | _ => .ok ⟨⟨[]⟩, content⟩

/-- The page title substituted when the front matter's title is empty. -/
def defaultTitle : List Char :=
  "Gio - immediate mode GUI in Go".toList

/-- The errors `loadMarkdown` can return: a failed read of the page file,
a front-matter parse failure, or a template-execution failure. -/
inductive LoadErr
  | readErr
  | frontMatterErr (msg : List Char)
  | templateErr (msg : List Char)
deriving DecidableEq

/-- The library facilities `loadMarkdown` is built from, abstracted:
the regexp engine, the two file trees (`content/` reads keyed by page
url as in `filepath.Join(contentRoot, url+".md")`, `include/` reads keyed
by include path), `yaml.Unmarshal`, `markdown.ToHTML` (parameterised by
the configured `ReadIncludeFn`), `docTmpl.ExecuteTemplate` applied to the
`args` struct, and `error.Error()` rendering an error value as text. -/
structure Libs (ρ : Type) where
  engine : RegexEngine ρ
  fsContent : List Char → Option (List Char)
  fsInclude : List Char → Option (List Char)
  yaml : List Char → Except (List Char) frontMatter
  toHTML : (List Char → List Char → List Char) → List Char → List Char
  exec : frontMatter → List Char → Except (List Char) (List Char)
  emsg : IncludeError → List Char

/-- The closure Go `loadMarkdown` installs as `mdp.Opts.ReadIncludeFn`:
resolve the include, and on failure return the error's text as the
included content. -/
def readIncludeFn {ρ : Type} (L : Libs ρ) (path addr : List Char) : List Char :=
  match includeExample L.engine L.fsInclude path addr with
  | .ok content => content
  | .error err => L.emsg err

/-- Go `loadMarkdown`: read the page file, split front matter from body,
default the title, render the body to HTML with include expansion, and
execute the page template. -/
def loadMarkdown {ρ : Type} (L : Libs ρ) (url : List Char) :
    Except LoadErr (List Char) :=
  match L.fsContent url with
  | none => .error .readErr
  | some content =>
    match loadPage L.yaml content with
    | .error e => .error (.frontMatterErr e)
    | .ok pg =>
      let front : frontMatter :=
        if pg.Front.Title = [] then ⟨defaultTitle⟩ else pg.Front
      let html := L.toHTML (readIncludeFn L) pg.Content
      match L.exec front html with
      | .error e => .error (.templateErr e)
      | .ok out => .ok out

/-- Association-list lookup, the model of the Go map `pages`. -/
def lookupA (k : List Char) : List (List Char × List Char) → Option (List Char)
  | [] => none
  | (k', v) :: rest => if k' = k then some v else lookupA k rest

/-- Go `path[len(root):]` followed by stripping the `.md` extension:
the cache key `loadDocs` derives from a walked path. -/
def stripName (root path : List Char) : List Char :=
  let n := path.drop root.length
  n.take (n.length - ".md".length)

/-- Does the path carry extension `.md`?  Go tests
`filepath.Ext(path) == ".md"`, which holds exactly when the path ends in
`.md` (the extension has no separator, so the dot sits in the final path
element). -/
def hasMdExt (path : List Char) : Bool :=
  startsWith (".md".toList.reverse) path.reverse

/-- Go `loadDocs`: walk the content tree (modelled by the list of file
paths the walk visits, directories excluded), and cache
`loadMarkdown name` under the derived `name` for each `.md` file,
stopping at the first error. -/
def loadDocs (lm : List Char → Except LoadErr (List Char)) (root : List Char) :
    List (List Char) → Except LoadErr (List (List Char × List Char))
  | [] => .ok []
  | path :: rest =>
    if hasMdExt path then
      match lm (stripName root path) with
      | .error e => .error e
      | .ok content =>
        match loadDocs lm root rest with
        | .error e => .error e
        | .ok m => .ok ((stripName root path, content) :: m)
    else loadDocs lm root rest

/-- The error `servePage` returns: the sentinel `errNoPage`, or an error
from loading the page on demand. -/
inductive ServeErr
  | noPage
  | loadFailed (e : LoadErr)
deriving DecidableEq

/-- Go `servePage`: on GAE (`gae = true`) the page is looked up in the
prebuilt `pages` cache, missing entries yielding `errNoPage`; otherwise
it is loaded on demand with `loadMarkdown`.  The returned bytes are what
gets written to the response. -/
def servePage (gae : Bool) (pages : List (List Char × List Char))
    (lm : List Char → Except LoadErr (List Char)) (path : List Char) :
    Except ServeErr (List Char) :=
  if gae then
    match lookupA path pages with
    | some p => .ok p
    | none => .error .noPage
  else
    match lm path with
    | .ok p => .ok p
    | .error e => .error (.loadFailed e)

/-- What `pageHandler` does with a request: write a page, delegate to the
fallback handler, or answer `500 failed to serve page`. -/
inductive HandlerResult
  | page (body : List Char)
  | fallback
  | internalError
deriving DecidableEq

/-- The path rewrite at the top of Go `pageHandler`: a path with the
suffix `/` gets `index` appended. -/
def resolvePath (path : List Char) : List Char :=
  if path.getLast? = some '/' then path ++ "index".toList else path

/-- Go `pageHandler`: append `index` to directory paths, serve the page,
fall back on `errNoPage` and answer 500 on any other error. -/
def pageHandler (gae : Bool) (pages : List (List Char × List Char))
    (lm : List Char → Except LoadErr (List Char)) (path : List Char) :
    HandlerResult :=
  match servePage gae pages lm (resolvePath path) with
  | .ok body => .page body
  | .error .noPage => .fallback
  | .error (.loadFailed _) => .internalError

/-! Concrete instances used to exercise the definitions: a literal-string
regexp engine (every pattern compiles and matches itself, leftmost),
and an engine on which no pattern compiles. -/

/-- A regexp engine for literal patterns: `compile` accepts every string,
`findIndex` finds the leftmost occurrence of the literal. -/
def litEngine : RegexEngine (List Char) :=
  ⟨fun r => some r, fun r hay => findLit r hay⟩

/-- A regexp engine on which every pattern fails to compile. -/
def failEngine : RegexEngine (List Char) :=
  ⟨fun _ => none, fun r hay => findLit r hay⟩

/-- A sample included source file. -/
def srcFile : List Char :=
  "// before\n\tstart here\n\tmiddle\n\tlast END\nafter\n".toList

/-- A sample `include/` tree holding only `hello.go`. -/
def fsInc : List Char → Option (List Char) :=
  fun p => if p = "hello.go".toList then some srcFile else none

/-- A sample page body whose markdown contains one include directive,
modelled by `toyHTML`. -/
def pageBody : List Char :=
  "---\ntitle: x\n---\nbody\n".toList

/-- A sample `content/` tree holding the pages `/doc` and `/plain`. -/
def fsCont : List Char → Option (List Char) :=
  fun u =>
    if u = "/doc".toList then some pageBody
    else if u = "/plain".toList then some ("plain text\n".toList)
    else none

/-- A toy Markdown renderer: it expands a single include directive for
`hello.go` with an empty address and appends the body unchanged. -/
def toyHTML (ri : List Char → List Char → List Char) (body : List Char) :
    List Char :=
  ri ("hello.go".toList) [] ++ body

/-- A toy template: title, then content. -/
def toyExec (f : frontMatter) (html : List Char) :
    Except (List Char) (List Char) :=
  .ok (f.Title ++ html)

/-- A toy YAML decoder: the whole header becomes the title. -/
def toyYaml : List Char → Except (List Char) frontMatter :=
  fun s => .ok ⟨s⟩

/-- Concrete libraries whose include tree is empty, so that every include
directive fails with a read error. -/
def brokenIncludeLibs : Libs (List Char) :=
  ⟨litEngine, fsCont, fun _ => none, toyYaml, toyHTML, toyExec,
    fun _ => "ERR".toList⟩

/-- Concrete libraries whose content tree is empty, so that every page
load fails with a read error. -/
def noPageLibs : Libs (List Char) :=
  ⟨litEngine, fun _ => none, fun _ => none, toyYaml, toyHTML, toyExec,
    fun _ => "ERR".toList⟩

/-- Concrete libraries with the sample content and include trees. -/
def sampleLibs : Libs (List Char) :=
  ⟨litEngine, fsCont, fsInc, toyYaml, toyHTML, toyExec,
    fun _ => "ERR".toList⟩

/-- The rendered bytes of the sample page `/doc` under `sampleLibs`. -/
def docBytes : List Char :=
  "\ntitle: x\n".toList ++ srcFile ++ "\nbody\n".toList

/-- The rendered bytes of the sample page `/plain` under `sampleLibs`. -/
def plainBytes : List Char :=
  defaultTitle ++ srcFile ++ "plain text\n".toList

/-- The file paths a walk of the sample content tree visits. -/
def walkPaths : List (List Char) :=
  ["content/doc.md".toList, "content/notes.txt".toList,
    "content/plain.md".toList]

/-- The cache `loadDocs` builds from `walkPaths` under `sampleLibs`. -/
def cachePages : List (List Char × List Char) :=
  [("/doc".toList, docBytes), ("/plain".toList, plainBytes)]

/-! Lemmas about the string-search helpers. -/

theorem startsWith_iff {n h : List Char} : startsWith n h = true ↔ n <+: h := by
  induction n generalizing h with
  | nil => simp [startsWith, List.nil_prefix]
  | cons a as ih =>
    cases h with
    | nil => simp [startsWith, List.prefix_nil]
    | cons b bs =>
      simp [startsWith, List.cons_prefix_cons, ih, Bool.and_eq_true,
        decide_eq_true_eq]

theorem containsSeq_iff {n h : List Char} :
    containsSeq n h = true ↔ n <:+: h := by
  induction h with
  | nil => simp [containsSeq, List.isEmpty_iff, List.infix_nil]
  | cons c rest ih =>
    simp [containsSeq, Bool.or_eq_true, startsWith_iff, ih,
      List.infix_cons_iff]

theorem containsSeq_false_of_infix {n l₁ l₂ : List Char}
    (hsub : l₁ <:+: l₂) (h : containsSeq n l₂ = false) :
    containsSeq n l₁ = false := by
  by_contra hne
  have h1 : containsSeq n l₁ = true := by
    cases hcs : containsSeq n l₁ with
    | false => exact absurd hcs hne
    | true => rfl
  have : containsSeq n l₂ = true :=
    containsSeq_iff.mpr ((containsSeq_iff.mp h1).trans hsub)
  rw [this] at h
  exact Bool.noConfusion h

theorem findLitAux_none_iff {n : List Char} :
    ∀ {h : List Char} {off : Nat},
      findLitAux n h off = none ↔ containsSeq n h = false := by
  intro h
  induction h with
  | nil =>
    intro off
    cases hsw : startsWith n [] <;>
      simp [findLitAux, containsSeq, hsw, startsWith, List.isEmpty_iff] <;>
      cases n <;> simp_all [startsWith]
  | cons c rest ih =>
    intro off
    cases hsw : startsWith n (c :: rest) <;>
      simp [findLitAux, containsSeq, hsw, ih]

theorem findLit_none_iff {n h : List Char} :
    findLit n h = none ↔ containsSeq n h = false :=
  findLitAux_none_iff

theorem findLitAux_bounds {n : List Char} :
    ∀ {h : List Char} {off i j : Nat},
      findLitAux n h off = some (i, j) →
      off ≤ i ∧ j = i + n.length ∧ (i - off) + n.length ≤ h.length := by
  intro h
  induction h with
  | nil =>
    intro off i j hfind
    cases hsw : startsWith n [] <;> simp [findLitAux, hsw] at hfind
    have hn : n = [] := by cases n <;> simp_all [startsWith]
    obtain ⟨hi, hj⟩ := hfind
    subst hi; subst hn
    simp only [List.length_nil, Nat.add_zero] at hj ⊢
    omega
  | cons c rest ih =>
    intro off i j hfind
    cases hsw : startsWith n (c :: rest) with
    | true =>
      simp [findLitAux, hsw] at hfind
      obtain ⟨hi, hj⟩ := hfind
      have hlen : n.length ≤ (c :: rest).length := by
        have := startsWith_iff.mp hsw
        exact this.length_le
      subst hi
      omega
    | false =>
      simp [findLitAux, hsw] at hfind
      obtain ⟨h1, h2, h3⟩ := ih hfind
      refine ⟨by omega, h2, ?_⟩
      simp only [List.length_cons]
      omega

theorem findLit_startsWith {n h : List Char} (hsw : startsWith n h = true) :
    findLit n h = some (0, n.length) := by
  cases h <;> simp [findLit, findLitAux, hsw]

theorem findLit_pos_of_not_startsWith {n h : List Char} {i j : Nat}
    (hsw : startsWith n h = false) (hfind : findLit n h = some (i, j)) :
    0 < i := by
  unfold findLit at hfind
  cases h with
  | nil => simp [findLitAux, hsw] at hfind
  | cons c rest =>
    simp [findLitAux, hsw] at hfind
    have := (findLitAux_bounds hfind).1
    omega

/-! Lemmas about `undent` and its helpers. -/

theorem leadingTabs_cons (c : Char) (rest : List Char) :
    leadingTabs (c :: rest) =
      if c = '\t' then leadingTabs rest + 1 else 0 := by
  simp only [leadingTabs, List.takeWhile_cons]
  split <;> simp_all

theorem stripTabs_eq_drop :
    ∀ (n : Nat) (l : List Char),
      stripTabs n l = l.drop (min n (leadingTabs l)) := by
  intro n
  induction n with
  | zero => intro l; simp [stripTabs]
  | succ n ih =>
    intro l
    cases l with
    | nil => simp [stripTabs]
    | cons c rest =>
      by_cases hc : c = '\t'
      · subst hc
        have hmin : min (n + 1) (leadingTabs rest + 1) =
            min n (leadingTabs rest) + 1 := by omega
        simp [stripTabs, leadingTabs_cons, hmin, ih rest]
      · simp [stripTabs, leadingTabs_cons, hc]

theorem undentGo_false (n : Nat) :
    ∀ lines : List (List Char),
      undentGo lines false n =
        ((lines.filter fun l => !containsOMIT l).map
          fun l => stripTabs n l ++ ['\n']).flatten := by
  intro lines
  induction lines with
  | nil => simp [undentGo]
  | cons line rest ih =>
    cases hl : containsOMIT line with
    | true => simp [undentGo, hl, List.filter_cons, ih]
    | false => simp [undentGo, hl, List.filter_cons, ih]

theorem undentGo_true_nil :
    ∀ lines : List (List Char),
      (lines.filter fun l => !containsOMIT l) = [] →
      undentGo lines true 0 = [] := by
  intro lines
  induction lines with
  | nil => intro _; rfl
  | cons line rest ih =>
    intro hfilter
    rw [List.filter_cons] at hfilter
    cases hl : containsOMIT line with
    | true =>
      rw [hl] at hfilter
      simp only [Bool.not_true] at hfilter
      rw [if_neg (by simp)] at hfilter
      simpa [undentGo, hl] using ih hfilter
    | false =>
      rw [hl] at hfilter
      simp at hfilter

theorem undentGo_true_cons :
    ∀ (lines : List (List Char)) (first : List Char)
      (rest : List (List Char)),
      (lines.filter fun l => !containsOMIT l) = first :: rest →
      undentGo lines true 0 =
        ((first :: rest).map
          fun l => stripTabs (leadingTabs first) l ++ ['\n']).flatten := by
  intro lines
  induction lines with
  | nil => intro first rest h; simp at h
  | cons line tail ih =>
    intro first rest hfilter
    rw [List.filter_cons] at hfilter
    cases hl : containsOMIT line with
    | true =>
      rw [hl] at hfilter
      simp only [Bool.not_true] at hfilter
      rw [if_neg (by simp)] at hfilter
      simpa [undentGo, hl] using ih first rest hfilter
    | false =>
      rw [hl] at hfilter
      simp at hfilter
      obtain ⟨rfl, hrest⟩ := hfilter
      simp [undentGo, hl, undentGo_false (leadingTabs line) tail, hrest]

/-! Lemmas about `scanLines`. -/

theorem mem_dropCR {c : Char} {l : List Char} (h : c ∈ dropCR l) : c ∈ l := by
  unfold dropCR at h
  split at h
  · exact List.dropLast_subset l h
  · exact h

theorem scanLinesAux_no_newline :
    ∀ (text acc : List Char), (∀ c ∈ acc, c ≠ '\n') →
      ∀ l ∈ scanLinesAux acc text, ∀ c ∈ l, c ≠ '\n' := by
  intro text
  induction text with
  | nil =>
    intro acc hacc l hl c hc
    unfold scanLinesAux at hl
    split at hl
    · simp at hl
    · simp at hl
      subst hl
      exact hacc c (by simpa using mem_dropCR hc)
  | cons d rest ih =>
    intro acc hacc l hl c hc
    unfold scanLinesAux at hl
    split at hl
    · rcases List.mem_cons.mp hl with h1 | h2
      · subst h1
        exact hacc c (by simpa using mem_dropCR hc)
      · exact ih [] (by simp) l h2 c hc
    · rename_i hd
      refine ih (d :: acc) ?_ l hl c hc
      intro x hx
      rcases List.mem_cons.mp hx with h1 | h2
      · subst h1
        simpa using hd
      · exact hacc x h2

theorem scanLinesAux_append_newline :
    ∀ (l : List Char), (∀ c ∈ l, c ≠ '\n') →
      ∀ (acc rest : List Char),
        scanLinesAux acc (l ++ '\n' :: rest) =
          dropCR (acc.reverse ++ l) :: scanLinesAux [] rest := by
  intro l
  induction l with
  | nil =>
    intro _ acc rest
    simp [scanLinesAux]
  | cons c cs ih =>
    intro hl acc rest
    have hc : ¬(c = '\n') := by simpa using hl c (List.mem_cons_self c cs)
    have hcs : ∀ x ∈ cs, x ≠ '\n' := fun x hx => hl x (List.mem_cons_of_mem c hx)
    simp only [List.cons_append, scanLinesAux, if_neg hc, List.append_eq]
    rw [ih hcs (c :: acc) rest]
    simp

theorem scanLines_append_newline {l rest : List Char}
    (h : ∀ c ∈ l, c ≠ '\n') :
    scanLines (l ++ '\n' :: rest) = dropCR l :: scanLines rest := by
  unfold scanLines
  rw [scanLinesAux_append_newline l h [] rest]
  simp

theorem containsOMIT_dropCR_stripTabs {line : List Char} {n : Nat}
    (h : containsOMIT line = false) :
    containsOMIT (dropCR (stripTabs n line)) = false := by
  refine containsSeq_false_of_infix ?_ h
  have h1 : dropCR (stripTabs n line) <+: stripTabs n line := by
    unfold dropCR
    split
    · exact List.dropLast_prefix _
    · exact List.prefix_refl _
  have h2 : stripTabs n line <:+ line := by
    rw [stripTabs_eq_drop]
    exact List.drop_suffix _ _
  exact h1.isInfix.trans h2.isInfix

theorem undentGo_scan_no_omit :
    ∀ (lines : List (List Char)) (first : Bool) (n : Nat),
      (∀ l ∈ lines, ∀ c ∈ l, c ≠ '\n') →
      ∀ l ∈ scanLines (undentGo lines first n), containsOMIT l = false := by
  intro lines
  induction lines with
  | nil =>
    intro first n _ l hl
    simp [undentGo, scanLines, scanLinesAux] at hl
  | cons line rest ih =>
    intro first n hln l hl
    have hline : ∀ c ∈ line, c ≠ '\n' :=
      hln line (List.mem_cons_self line rest)
    have hrest : ∀ l ∈ rest, ∀ c ∈ l, c ≠ '\n' :=
      fun l hml => hln l (List.mem_cons_of_mem line hml)
    cases ho : containsOMIT line with
    | true =>
      rw [show undentGo (line :: rest) first n = undentGo rest first n by
        simp [undentGo, ho]] at hl
      exact ih first n hrest l hl
    | false =>
      rw [show undentGo (line :: rest) first n =
          stripTabs (if first then leadingTabs line else n) line ++
            '\n' :: undentGo rest false (if first then leadingTabs line else n)
          by simp [undentGo, ho]] at hl
      rw [scanLines_append_newline (fun c hc hne => by
        have : c ∈ line := by
          have := stripTabs_eq_drop (if first then leadingTabs line else n) line
          rw [this] at hc
          exact List.drop_subset _ _ hc
        exact hline c this hne)] at hl
      rcases List.mem_cons.mp hl with h1 | h2
      · subst h1
        exact containsOMIT_dropCR_stripTabs ho
      · exact ih false _ hrest l h2

/-! Claim theorems. -/

/-- C3: `undent` performs shared-indentation stripping: it removes from
every line the number of leading tab characters found on the first
retained line, stripping from each line at most that many tabs and only
tab characters actually leading that line. -/
theorem undent_shared_indentation (text first : List Char)
    (rest : List (List Char))
    (h : (scanLines text).filter (fun l => !containsOMIT l) = first :: rest) :
    undent text =
      ((first :: rest).map
        (fun l =>
          l.drop (min (leadingTabs first) (leadingTabs l)) ++ ['\n'])).flatten := by
  unfold undent
  rw [undentGo_true_cons (scanLines text) first rest h]
  have hfun : (fun l => stripTabs (leadingTabs first) l ++ ['\n']) =
      (fun l : List Char =>
        l.drop (min (leadingTabs first) (leadingTabs l)) ++ ['\n']) := by
    funext l
    rw [stripTabs_eq_drop]
  rw [hfun]

theorem undent_shared_indentation_witness :
    ((scanLines ("lead OMIT\n\ta\n\t\tb\nc\n".toList)).filter
        (fun l => !containsOMIT l) =
      ["\ta".toList, "\t\tb".toList, "c".toList]) ∧
    undent ("lead OMIT\n\ta\n\t\tb\nc\n".toList) = "a\n\tb\nc\n".toList :=
  ⟨by decide,
    (undent_shared_indentation ("lead OMIT\n\ta\n\t\tb\nc\n".toList)
      ("\ta".toList) ["\t\tb".toList, "c".toList] (by decide)).trans
      (by decide)⟩

/-- C9: no line of `undent`'s output contains the substring `OMIT`: every
such line is dropped entirely, and a first line containing `OMIT` is also
excluded from determining the number of tabs to strip (the loop stays in
its initial state when it skips such a line). -/
theorem undent_omit_free (text l : List Char) (ls : List (List Char)) :
    (l ∈ scanLines (undent text) → containsOMIT l = false) ∧
    (containsOMIT l = true → undentGo (l :: ls) true 0 = undentGo ls true 0) := by
  constructor
  · intro hl
    exact undentGo_scan_no_omit (scanLines text) true 0
      (scanLinesAux_no_newline text [] (by simp)) l hl
  · intro ho
    simp [undentGo, ho]

theorem undent_omit_free_witness :
    containsOMIT ("keep".toList) = false ∧
    undentGo ("zz OMIT".toList :: ["a".toList]) true 0 =
      undentGo ["a".toList] true 0 :=
  ⟨(undent_omit_free ("x OMIT\nkeep\n".toList) ("keep".toList) []).1 (by decide),
    (undent_omit_free [] ("zz OMIT".toList) ["a".toList]).2 (by decide)⟩

/-- C1: for an include directive on a readable file with a non-empty
address `/s/,/e/` whose regexes compile, the spliced content (before
newline trimming and indentation stripping) is the range of the source
file that begins at the start of the first match of `s` (position 0 when
`s` has no match) and ends at the end of the first match of `e` in the
remaining suffix (the end of the file when `e` has no match there). -/
theorem includeExample_range {ρ : Type} (E : RegexEngine ρ)
    (fs : List Char → Option (List Char)) (path addr content s e : List Char)
    (rs re : ρ)
    (hfs : fs path = some content)
    (hsplit : splitFirstComma addr = some (s, e))
    (hs : regexFor E s = .ok rs)
    (he : regexFor E e = .ok re) :
    includeExample E fs path addr =
      .ok (undent (trimNl (
        match E.findIndex rs content with
        | some (i, _) =>
          (match E.findIndex re (content.drop i) with
           | some (_, j) => (content.take (i + j)).drop i
           | none => content.drop i)
        | none =>
          (match E.findIndex re content with
           | some (_, j) => content.take j
           | none => content)) ++ ['\n'])) := by
  have haddr : addr.isEmpty = false := by
    cases addr with
    | nil => simp [splitFirstComma, findLit, findLitAux, startsWith] at hsplit
    | cons c cs => rfl
  simp only [includeExample, hfs, haddr, Bool.false_eq_true, if_false, hsplit,
    hs, he]
  cases hfi : E.findIndex rs content with
  | none =>
    cases hfe : E.findIndex re content with
    | none => rfl
    | some q => rfl
  | some p =>
    obtain ⟨i, j1⟩ := p
    cases hfe : E.findIndex re (content.drop i) with
    | none => simp [hfe]
    | some q =>
      obtain ⟨k, j2⟩ := q
      simp [hfe, List.drop_take, Nat.add_sub_cancel_left]

theorem includeExample_range_witness :
    fsInc ("hello.go".toList) = some srcFile ∧
    includeExample litEngine fsInc ("hello.go".toList)
        ("/start/,/END/".toList) =
      .ok ("start here\n\tmiddle\n\tlast END\n".toList) :=
  ⟨by rfl,
    (includeExample_range litEngine fsInc ("hello.go".toList)
      ("/start/,/END/".toList) srcFile ("/start/".toList) ("/END/".toList)
      ("start".toList) ("END".toList) (by rfl) (by rfl) (by rfl)
      (by rfl)).trans (by rfl)⟩

/-- C6: a non-empty include address without a comma, or whose start or
end delimiter is not of the form `/regex/` (length at least 2, beginning
and ending with `/`), or whose enclosed regex fails to compile, makes
`includeExample` return an error (and hence no content). -/
theorem includeExample_address_errors {ρ : Type} (E : RegexEngine ρ)
    (fs : List Char → Option (List Char)) (path addr content s e : List Char)
    (hfs : fs path = some content) (hne : addr ≠ []) :
    (containsSeq [','] addr = false → splitFirstComma addr = none) ∧
    (splitFirstComma addr = none →
      includeExample E fs path addr = .error (.invalidAddress addr)) ∧
    (splitFirstComma addr = some (s, e) → ∀ err, regexFor E s = .error err →
      includeExample E fs path addr = .error err) ∧
    (splitFirstComma addr = some (s, e) → ∀ rs err, regexFor E s = .ok rs →
      regexFor E e = .error err →
      includeExample E fs path addr = .error err) ∧
    (∀ r : List Char,
      (r.length < 2 ∨ r.head? ≠ some '/' ∨ r.getLast? ≠ some '/') →
      regexFor E r = .error (.regexSeparators r)) ∧
    (∀ r : List Char,
      ¬(r.length < 2 ∨ r.head? ≠ some '/' ∨ r.getLast? ≠ some '/') →
      E.compile ((r.drop 1).dropLast) = none →
      regexFor E r = .error (.regexCompile r)) := by
  have haddr : addr.isEmpty = false := by
    cases addr with
    | nil => exact absurd rfl hne
    | cons c cs => rfl
  refine ⟨?_, ?_, ?_, ?_, ?_, ?_⟩
  · intro h
    simp [splitFirstComma, findLit_none_iff.mpr h]
  · intro h
    simp [includeExample, hfs, haddr, h]
  · intro h err herr
    simp [includeExample, hfs, haddr, h, herr]
  · intro h rs err hok herr
    simp [includeExample, hfs, haddr, h, hok, herr]
  · intro r hr
    unfold regexFor
    rw [if_pos hr]
  · intro r hr hc
    unfold regexFor
    rw [if_neg hr, hc]

theorem includeExample_address_errors_witness :
    includeExample failEngine fsInc ("hello.go".toList) ("nocomma".toList) =
      .error (.invalidAddress ("nocomma".toList)) ∧
    includeExample failEngine fsInc ("hello.go".toList) ("/a/,/b/".toList) =
      .error (.regexCompile ("/a/".toList)) ∧
    regexFor failEngine ("x".toList) =
      .error (.regexSeparators ("x".toList)) ∧
    regexFor failEngine ("/a/".toList) =
      .error (.regexCompile ("/a/".toList)) :=
  ⟨(includeExample_address_errors failEngine fsInc ("hello.go".toList)
      ("nocomma".toList) srcFile [] [] (by rfl) (by decide)).2.1 (by rfl),
    (includeExample_address_errors failEngine fsInc ("hello.go".toList)
      ("/a/,/b/".toList) srcFile ("/a/".toList) ("/b/".toList) (by rfl)
      (by decide)).2.2.1 (by rfl) (.regexCompile ("/a/".toList)) (by rfl),
    (includeExample_address_errors failEngine fsInc ("hello.go".toList)
      ("nocomma".toList) srcFile [] [] (by rfl) (by decide)).2.2.2.2.1
      ("x".toList) (by decide),
    (includeExample_address_errors failEngine fsInc ("hello.go".toList)
      ("nocomma".toList) srcFile [] [] (by rfl) (by decide)).2.2.2.2.2
      ("/a/".toList) (by decide) (by rfl)⟩

theorem splitNSep_succ2 (sep : List Char) (n : Nat) (s : List Char) :
    splitNSep sep (n + 2) s =
      (match findLit sep s with
       | none => [s]
       | some (i, _) =>
         s.take i :: splitNSep sep (n + 1) (s.drop (i + sep.length))) := rfl

theorem splitNSep_of_found {sep s : List Char} {i j : Nat} (n : Nat)
    (h : findLit sep s = some (i, j)) :
    splitNSep sep (n + 2) s =
      s.take i :: splitNSep sep (n + 1) (s.drop (i + sep.length)) := by
  rw [splitNSep_succ2, h]

theorem splitNSep_of_none {sep s : List Char} (n : Nat)
    (h : findLit sep s = none) :
    splitNSep sep (n + 2) s = [s] := by
  rw [splitNSep_succ2, h]

theorem splitNSep_one (sep s : List Char) : splitNSep sep 1 s = [s] := rfl

/-- C2: `loadPage` separates front matter from body: when the content
begins with `---` and a second (non-overlapping) `---` marker follows,
the text between the two markers is decoded as YAML (a decode failure
becoming the returned error) and everything after the second marker is
the body; otherwise the front matter is empty and the body is the whole,
unchanged content. -/
theorem loadPage_front_matter (Y : List Char → Except (List Char) frontMatter)
    (content : List Char) (i j : Nat) :
    (startsWith ("---".toList) content = false ∨
        containsSeq ("---".toList) (content.drop 3) = false →
      loadPage Y content = .ok ⟨⟨[]⟩, content⟩) ∧
    (startsWith ("---".toList) content = true →
      findLit ("---".toList) (content.drop 3) = some (i, j) →
      loadPage Y content =
        match Y ((content.drop 3).take i) with
        | .ok front => .ok ⟨front, (content.drop 3).drop (i + 3)⟩
        | .error e => .error e) := by
  constructor
  · intro h
    unfold loadPage
    rw [show (3 : Nat) = 1 + 2 from rfl]
    cases hsw : startsWith ("---".toList) content with
    | false =>
      cases hfl : findLit ("---".toList) content with
      | none => rw [splitNSep_of_none 1 hfl]
      | some p =>
        obtain ⟨i0, j0⟩ := p
        have hpos : 0 < i0 := findLit_pos_of_not_startsWith hsw hfl
        have hbound := (findLitAux_bounds hfl).2.2
        rw [splitNSep_of_found 1 hfl, show (1 + 1 : Nat) = 0 + 2 from rfl]
        cases hfl2 : findLit ("---".toList)
            (content.drop (i0 + ("---".toList).length)) with
        | none => rw [splitNSep_of_none 0 hfl2]
        | some q =>
          obtain ⟨i1, j1⟩ := q
          have hlen : 0 < (content.take i0).length := by
            rw [List.length_take]
            simp only [List.length] at hbound
            omega
          rw [splitNSep_of_found 0 hfl2, splitNSep_one]
          simp [hlen]
          intro hc
          exfalso
          have hcontent := hc hpos
          subst hcontent
          simp at hbound
    | true =>
      have hnc : containsSeq ("---".toList) (content.drop 3) = false := by
        rcases h with h1 | h2
        · rw [hsw] at h1
          exact absurd h1 (by simp)
        · exact h2
      have hfl : findLit ("---".toList) content = some (0, 3) :=
        findLit_startsWith hsw
      have h2 : findLit ("---".toList)
          (content.drop (0 + ("---".toList).length)) = none := by
        rw [show content.drop (0 + ("---".toList).length) = content.drop 3
          from rfl]
        exact findLit_none_iff.mpr hnc
      rw [splitNSep_of_found 1 hfl, show (1 + 1 : Nat) = 0 + 2 from rfl,
        splitNSep_of_none 0 h2]
  · intro hsw hfl2
    have hfl : findLit ("---".toList) content = some (0, 3) :=
      findLit_startsWith hsw
    have hfl2' : findLit ("---".toList)
        (content.drop (0 + ("---".toList).length)) = some (i, j) := by
      rw [show content.drop (0 + ("---".toList).length) = content.drop 3
        from rfl]
      exact hfl2
    unfold loadPage
    rw [show (3 : Nat) = 1 + 2 from rfl, splitNSep_of_found 1 hfl,
      show (1 + 1 : Nat) = 0 + 2 from rfl, splitNSep_of_found 0 hfl2',
      splitNSep_one]
    simp [List.drop_drop, show (3 + (i + 3)) = i + 3 + 3 from by omega]
    cases Y (List.take i (List.drop 3 content)) <;> rfl

theorem loadPage_front_matter_witness :
    loadPage toyYaml ("plain text".toList) =
      .ok ⟨⟨[]⟩, "plain text".toList⟩ ∧
    loadPage toyYaml pageBody =
      .ok ⟨⟨"\ntitle: x\n".toList⟩, "\nbody\n".toList⟩ :=
  ⟨(loadPage_front_matter toyYaml ("plain text".toList) 0 0).1
      (Or.inl (by decide)),
    ((loadPage_front_matter toyYaml pageBody 10 13).2 (by decide)
      (by decide)).trans (by rfl)⟩

theorem lookupA_mem {k v : List Char} :
    ∀ {m : List (List Char × List Char)}, lookupA k m = some v → (k, v) ∈ m := by
  intro m
  induction m with
  | nil => intro h; simp [lookupA] at h
  | cons kv rest ih =>
    intro h
    obtain ⟨k', v'⟩ := kv
    unfold lookupA at h
    split at h
    · rename_i heq
      injection h with hv
      subst heq
      subst hv
      exact List.mem_cons_self _ _
    · exact List.mem_cons_of_mem _ (ih h)

theorem loadDocs_entries (lm : List Char → Except LoadErr (List Char))
    (root : List Char) :
    ∀ (paths : List (List Char)) (pages : List (List Char × List Char)),
      loadDocs lm root paths = .ok pages →
      ∀ nm cc, (nm, cc) ∈ pages → lm nm = .ok cc := by
  intro paths
  induction paths with
  | nil =>
    intro pages h nm cc hm
    unfold loadDocs at h
    injection h with h
    subst h
    simp at hm
  | cons p rest ih =>
    intro pages h nm cc hm
    unfold loadDocs at h
    cases hmd : hasMdExt p with
    | false =>
      rw [hmd] at h
      simp only [Bool.false_eq_true, if_false] at h
      exact ih pages h nm cc hm
    | true =>
      rw [hmd] at h
      simp only [if_true] at h
      cases hlm : lm (stripName root p) with
      | error e => rw [hlm] at h; exact absurd h (by simp)
      | ok c =>
        rw [hlm] at h
        cases hld : loadDocs lm root rest with
        | error e => rw [hld] at h; exact absurd h (by simp)
        | ok m =>
          rw [hld] at h
          injection h with h
          subst h
          rcases List.mem_cons.mp hm with h1 | h2
          · obtain ⟨hnm, hcc⟩ := Prod.mk.inj h1
            subst hnm
            subst hcc
            exact hlm
          · exact ih m hld nm cc h2

theorem loadDocs_key_present (lm : List Char → Except LoadErr (List Char))
    (root : List Char) :
    ∀ (paths : List (List Char)) (pages : List (List Char × List Char))
      (p : List Char),
      loadDocs lm root paths = .ok pages → p ∈ paths → hasMdExt p = true →
      ∃ cc, lookupA (stripName root p) pages = some cc := by
  intro paths
  induction paths with
  | nil => intro pages p _ hp; simp at hp
  | cons q rest ih =>
    intro pages p h hp hmd
    unfold loadDocs at h
    rcases List.mem_cons.mp hp with h1 | h2
    · subst h1
      rw [hmd] at h
      simp only [if_true] at h
      cases hlm : lm (stripName root p) with
      | error e => rw [hlm] at h; exact absurd h (by simp)
      | ok c =>
        rw [hlm] at h
        cases hld : loadDocs lm root rest with
        | error e => rw [hld] at h; exact absurd h (by simp)
        | ok m =>
          rw [hld] at h
          injection h with h
          subst h
          refine ⟨c, ?_⟩
          unfold lookupA
          rw [if_pos rfl]
    · cases hmq : hasMdExt q with
      | false =>
        rw [hmq] at h
        simp only [Bool.false_eq_true, if_false] at h
        exact ih pages p h h2 hmd
      | true =>
        rw [hmq] at h
        simp only [if_true] at h
        cases hlm : lm (stripName root q) with
        | error e => rw [hlm] at h; exact absurd h (by simp)
        | ok c =>
          rw [hlm] at h
          cases hld : loadDocs lm root rest with
          | error e => rw [hld] at h; exact absurd h (by simp)
          | ok m =>
            rw [hld] at h
            injection h with h
            subst h
            obtain ⟨cc, hcc⟩ := ih m p hld h2 hmd
            by_cases hk : stripName root q = stripName root p
            · refine ⟨c, ?_⟩
              unfold lookupA
              rw [if_pos hk]
            · refine ⟨cc, ?_⟩
              unfold lookupA
              rw [if_neg hk]
              exact hcc

/-- C7: every entry `loadDocs` stores in the prebuilt cache under key
`name` (the walked path with the root prefix and the `.md` extension
stripped) equals `loadMarkdown name`; every walked `.md` file has an
entry; hence, with unchanged files, `servePage` yields the same bytes
for a cached path whether it reads the cache (GAE mode) or loads on
demand. -/
theorem loadDocs_cache_consistent
    (lm : List Char → Except LoadErr (List Char)) (root : List Char)
    (paths : List (List Char)) (pages : List (List Char × List Char))
    (name c p : List Char) :
    (loadDocs lm root paths = .ok pages →
      ∀ nm cc, (nm, cc) ∈ pages → lm nm = .ok cc) ∧
    (loadDocs lm root paths = .ok pages → lookupA name pages = some c →
      lm name = .ok c ∧
      servePage true pages lm name = servePage false pages lm name) ∧
    (loadDocs lm root paths = .ok pages → p ∈ paths → hasMdExt p = true →
      ∃ cc, lookupA (stripName root p) pages = some cc) := by
  refine ⟨fun h => loadDocs_entries lm root paths pages h, ?_,
    fun h hp hmd => loadDocs_key_present lm root paths pages p h hp hmd⟩
  intro h hlk
  have hlm : lm name = .ok c :=
    loadDocs_entries lm root paths pages h name c (lookupA_mem hlk)
  refine ⟨hlm, ?_⟩
  simp [servePage, hlk, hlm]

theorem loadDocs_cache_consistent_witness :
    loadDocs (loadMarkdown sampleLibs) ("content".toList) walkPaths =
      .ok cachePages ∧
    loadMarkdown sampleLibs ("/doc".toList) = .ok docBytes ∧
    servePage true cachePages (loadMarkdown sampleLibs) ("/doc".toList) =
      servePage false cachePages (loadMarkdown sampleLibs) ("/doc".toList) :=
  ⟨by rfl,
    ((loadDocs_cache_consistent (loadMarkdown sampleLibs) ("content".toList)
      walkPaths cachePages ("/doc".toList) docBytes []).2.1 (by rfl)
      (by rfl)).1,
    ((loadDocs_cache_consistent (loadMarkdown sampleLibs) ("content".toList)
      walkPaths cachePages ("/doc".toList) docBytes []).2.1 (by rfl)
      (by rfl)).2⟩

/-- C8: when the parsed front matter has an empty title (including the
no-front-matter case), `loadMarkdown` renders the page with the default
title `Gio - immediate mode GUI in Go`; a non-empty title reaches the
template unchanged. -/
theorem loadMarkdown_default_title {ρ : Type} (L : Libs ρ)
    (url content : List Char) (pg : page)
    (h1 : L.fsContent url = some content)
    (h2 : loadPage L.yaml content = .ok pg) :
    (pg.Front.Title = [] →
      loadMarkdown L url =
        match L.exec ⟨defaultTitle⟩ (L.toHTML (readIncludeFn L) pg.Content) with
        | .ok out => .ok out
        | .error e => .error (.templateErr e)) ∧
    (pg.Front.Title ≠ [] →
      loadMarkdown L url =
        match L.exec pg.Front (L.toHTML (readIncludeFn L) pg.Content) with
        | .ok out => .ok out
        | .error e => .error (.templateErr e)) := by
  constructor
  · intro ht
    simp [loadMarkdown, h1, h2, ht]
    cases L.exec ⟨defaultTitle⟩ (L.toHTML (readIncludeFn L) pg.Content) <;> rfl
  · intro ht
    simp [loadMarkdown, h1, h2, ht]
    cases L.exec pg.Front (L.toHTML (readIncludeFn L) pg.Content) <;> rfl

theorem loadMarkdown_default_title_witness :
    loadMarkdown sampleLibs ("/plain".toList) =
      .ok (defaultTitle ++ srcFile ++ "plain text\n".toList) ∧
    loadMarkdown sampleLibs ("/doc".toList) =
      .ok ("\ntitle: x\n".toList ++ srcFile ++ "\nbody\n".toList) :=
  ⟨((loadMarkdown_default_title sampleLibs ("/plain".toList)
      ("plain text\n".toList) ⟨⟨[]⟩, "plain text\n".toList⟩ (by rfl)
      (by rfl)).1 (by rfl)).trans (by rfl),
    ((loadMarkdown_default_title sampleLibs ("/doc".toList) pageBody
      ⟨⟨"\ntitle: x\n".toList⟩, "\nbody\n".toList⟩ (by rfl) (by rfl)).2
      (by decide)).trans (by rfl)⟩

/-- C5 counterexample: under `brokenIncludeLibs` every include read
fails, yet `loadMarkdown` of the page `/doc` (whose markdown holds one
include directive for `hello.go`) succeeds, splicing the error text
`ERR` where the include's content would go — it does not return the
include-resolution error. -/
theorem loadMarkdown_swallows_include_error :
    includeExample brokenIncludeLibs.engine brokenIncludeLibs.fsInclude
        ("hello.go".toList) [] = .error .readError ∧
    loadMarkdown brokenIncludeLibs ("/doc".toList) =
      .ok ("\ntitle: x\n".toList ++ "ERR".toList ++ "\nbody\n".toList) :=
  ⟨by rfl, by rfl⟩

/-- C5 amended: when resolving an include directive fails, the error is
not returned from `loadMarkdown`; instead the configured `ReadIncludeFn`
yields the error's text as the included content, and `loadMarkdown`
still renders the page whenever reading, front-matter parsing and
template execution succeed. -/
theorem includeError_spliced_not_returned {ρ : Type} (L : Libs ρ)
    (p a url content : List Char) (pg : page) (e : IncludeError)
    (out : List Char) :
    (includeExample L.engine L.fsInclude p a = .error e →
      readIncludeFn L p a = L.emsg e) ∧
    (L.fsContent url = some content → loadPage L.yaml content = .ok pg →
      L.exec (if pg.Front.Title = [] then ⟨defaultTitle⟩ else pg.Front)
        (L.toHTML (readIncludeFn L) pg.Content) = .ok out →
      loadMarkdown L url = .ok out) := by
  constructor
  · intro h
    simp [readIncludeFn, h]
  · intro h1 h2 h3
    simp [loadMarkdown, h1, h2, h3]

theorem includeError_spliced_not_returned_witness :
    readIncludeFn brokenIncludeLibs ("hello.go".toList) [] = "ERR".toList ∧
    loadMarkdown brokenIncludeLibs ("/doc".toList) =
      .ok ("\ntitle: x\n".toList ++ ("ERR".toList ++ "\nbody\n".toList)) :=
  ⟨(includeError_spliced_not_returned brokenIncludeLibs ("hello.go".toList)
      [] [] [] ⟨⟨[]⟩, []⟩ IncludeError.readError []).1 (by rfl),
    (includeError_spliced_not_returned brokenIncludeLibs ("hello.go".toList)
      [] ("/doc".toList) pageBody ⟨⟨"\ntitle: x\n".toList⟩, "\nbody\n".toList⟩
      IncludeError.readError
      ("\ntitle: x\n".toList ++ ("ERR".toList ++ "\nbody\n".toList))).2
      (by rfl) (by rfl) (by rfl)⟩

/-- C4 counterexample: outside GAE mode (no prebuilt cache) a request
for a path with no corresponding Markdown page is answered with the 500
internal error, not with the fallback handler, refuting the claim that
every request without a matching page reaches the fallback. -/
theorem pageHandler_no_fallback_outside_gae :
    noPageLibs.fsContent ("/x".toList) = none ∧
    loadMarkdown noPageLibs ("/x".toList) = .error .readErr ∧
    pageHandler false [] (loadMarkdown noPageLibs) ("/x".toList) =
      .internalError ∧
    pageHandler false [] (loadMarkdown noPageLibs) ("/x".toList) ≠
      .fallback :=
  ⟨rfl, rfl, rfl, by decide⟩

/-- C4 amended: the fallback handler runs exactly for GAE-mode requests
whose resolved path has no cache entry; a cached entry or a successful
on-demand load writes the page, and outside GAE mode a failed load is
answered with the 500 internal error rather than the fallback. -/
theorem pageHandler_modes (pages : List (List Char × List Char))
    (lm : List Char → Except LoadErr (List Char)) (path b : List Char)
    (e : LoadErr) :
    (lookupA (resolvePath path) pages = none →
      pageHandler true pages lm path = .fallback) ∧
    (lookupA (resolvePath path) pages = some b →
      pageHandler true pages lm path = .page b) ∧
    (lm (resolvePath path) = .ok b →
      pageHandler false pages lm path = .page b) ∧
    (lm (resolvePath path) = .error e →
      pageHandler false pages lm path = .internalError) := by
  refine ⟨?_, ?_, ?_, ?_⟩ <;> intro h <;> simp [pageHandler, servePage, h]

theorem pageHandler_modes_witness :
    pageHandler true cachePages (loadMarkdown sampleLibs) ("/nope".toList) =
      .fallback ∧
    pageHandler true cachePages (loadMarkdown sampleLibs) ("/doc".toList) =
      .page docBytes ∧
    pageHandler false cachePages (loadMarkdown sampleLibs) ("/plain".toList) =
      .page plainBytes ∧
    pageHandler false cachePages (loadMarkdown sampleLibs) ("/zz".toList) =
      .internalError :=
  ⟨(pageHandler_modes cachePages (loadMarkdown sampleLibs) ("/nope".toList)
      [] .readErr).1 (by rfl),
    (pageHandler_modes cachePages (loadMarkdown sampleLibs) ("/doc".toList)
      docBytes .readErr).2.1 (by rfl),
    (pageHandler_modes cachePages (loadMarkdown sampleLibs) ("/plain".toList)
      plainBytes .readErr).2.2.1 (by rfl),
    (pageHandler_modes cachePages (loadMarkdown sampleLibs) ("/zz".toList)
      [] .readErr).2.2.2 (by rfl)⟩

/-- C10: a request path ending in `/` gets `index` appended before the
page is resolved, so the directory path is served exactly like the
explicit `dir/index` path. -/
theorem pageHandler_dir_index (gae : Bool)
    (pages : List (List Char × List Char))
    (lm : List Char → Except LoadErr (List Char)) (path : List Char)
    (h : path.getLast? = some '/') :
    pageHandler gae pages lm path =
      pageHandler gae pages lm (path ++ "index".toList) := by
  have h1 : resolvePath path = path ++ "index".toList := by
    unfold resolvePath
    rw [if_pos h]
  have h2 : resolvePath (path ++ "index".toList) = path ++ "index".toList := by
    unfold resolvePath
    rw [if_neg (by simp [List.getLast?_append])]
  unfold pageHandler
  rw [h1, h2]

theorem pageHandler_dir_index_witness :
    pageHandler true cachePages (loadMarkdown sampleLibs) ("/dir/".toList) =
      pageHandler true cachePages (loadMarkdown sampleLibs)
        ("/dir/index".toList) :=
  (pageHandler_dir_index true cachePages (loadMarkdown sampleLibs)
    ("/dir/".toList) (by rfl)).trans (by rfl)

end Giouiorg
